import Mathlib

/-!
# Verification of `args-parser` (`args.go`)

A shallow embedding of the Go package `args` (file `args.go`) into Lean 4.
Go strings are modelled as `List Char`; the Go map `Args` is modelled as an
association list with unique keys (`mapInsert` overwrites in place, matching
Go map assignment).  Each definition mirrors the corresponding Go function.
-/

set_option autoImplicit false

namespace ArgsGo

/-- Go `strings.HasPrefix(s, p)` on char lists (argument order: pattern, string). -/
def hasPref : List Char → List Char → Bool
  | [], _ => true
  | _ :: _, [] => false
  | p :: ps, c :: cs => p == c && hasPref ps cs

/-- Go `strings.Contains(s, sub)` on char lists (argument order: sub, string). -/
def containsSub (sub : List Char) : List Char → Bool
  | [] => hasPref sub []
  | c :: cs => hasPref sub (c :: cs) || containsSub sub cs

/-- Go `strings.TrimPrefix(s, p)`: drops `p` from the front of `s` only when `p`
is an actual leading segment of `s`; otherwise returns `s` unchanged. -/
def trimPref (p s : List Char) : List Char :=
  if hasPref p s then s.drop p.length else s

/-- Go `strings.Split(s, sep)` for a single-character separator: splits on every
occurrence of `c`, always returning at least one (possibly empty) segment. -/
def splitOnChar (c : Char) : List Char → List (List Char)
  | [] => [[]]
  | d :: ds =>
    if d == c then [] :: splitOnChar c ds
    else
      match splitOnChar c ds with
      | [] => [[d]]
      | x :: xs => (d :: x) :: xs

/-- The Go struct `Argument` (`args.go` lines 13–20). -/
structure Argument where
  Name : List Char
  Short : List Char
  Description : List Char
  DefaultValue : List Char
  Values : List (List Char)
  ExpectsValue : Bool
deriving DecidableEq

/-- The raw argument table: the Go map `Args map[string]string`. -/
abbrev Table := List (List Char × List Char)

/-- Go map assignment `m[k] = v`: overwrites the entry for `k` in place if it
exists, otherwise appends a new entry.  Keeps keys unique. -/
def mapInsert (k v : List Char) : Table → Table
  | [] => [(k, v)]
  | (k₁, v₁) :: rest => if k₁ = k then (k, v) :: rest else (k₁, v₁) :: mapInsert k v rest

/-- Go map lookup `m[k]` returning `some v` when present. -/
def mapLookup (k : List Char) : Table → Option (List Char)
  | [] => none
  | (k₁, v₁) :: rest => if k₁ = k then some v₁ else mapLookup k rest

/-- The dash-stripping step of `parseArgs` (`args.go` lines 49–53): the check is
`strings.Contains` but the removal is `strings.TrimPrefix`. -/
def stripDash (a : List Char) : List Char :=
  if containsSub ['-', '-'] a then trimPref ['-', '-'] a
  else if containsSub ['-'] a then trimPref ['-'] a
  else a

/-- The key/value extraction step of `parseArgs` (`args.go` lines 54–61):
split on `=` and, when the split has more than one part, record parts 0 and 1;
otherwise the whole (dash-stripped) token maps to the empty value. -/
def keyVal (a : List Char) : List Char × List Char :=
  if containsSub ['='] a then
    match splitOnChar '=' a with
    | k :: v :: _ => (k, v)
    | _ => (a, [])
  else (a, [])

/-- Processing of one invocation token: dash stripping then `=` splitting. -/
def parseToken (a : List Char) : List Char × List Char :=
  keyVal (stripDash a)

/-- Go `parseArgs` (`args.go` lines 40–63): skips `os.Args[0]`, returns the
empty table when there is at most one element, and otherwise folds each token
into the map. -/
def parseArgs (osArgs : List (List Char)) : Table :=
  if osArgs.length ≤ 1 then []
  else (osArgs.drop 1).foldl (fun m a => mapInsert (parseToken a).1 (parseToken a).2 m) []

/-- The descriptor-scanning loop of `Using` (`args.go` lines 176–183). -/
def usingLoop (name : List Char) (args : Table) : List Argument → Bool
  | [] => false
  | r :: rest =>
    if r.Name ≠ name then usingLoop name args rest
    else if (mapLookup r.Short args).isSome then true
    else usingLoop name args rest

/-- Go `Using` (`args.go` lines 168–185). -/
def Using (name : List Char) (args : Table) (registered : List Argument) : Bool :=
  if args.length = 0 then false
  else if (mapLookup name args).isSome then true
  else usingLoop name args registered

/-- The descriptor-scanning loop of `Value` (`args.go` lines 197–204). -/
def valueLoop (name : List Char) (args : Table) : List Argument → Option (List Char)
  | [] => none
  | r :: rest =>
    if r.Name ≠ name then valueLoop name args rest
    else
      match mapLookup r.Short args with
      | some v => some v
      | none => valueLoop name args rest

/-- Go `Value` (`args.go` lines 189–207). -/
def Value (name : List Char) (args : Table) (registered : List Argument) : List Char :=
  if args.length = 0 then []
  else
    match mapLookup name args with
    | some v => v
    | none => (valueLoop name args registered).getD []

/-- The duplicate-detection loop of `Register` (`args.go` lines 155–162). -/
def registerLoop (arg : Argument) : List Argument → Option (List Char)
  | [] => none
  | r :: rest =>
    if r.Name = arg.Name then
      some (['-', '-'] ++ arg.Name ++ (" is already a registred argument").toList)
    else if arg.Short ≠ [] ∧ r.Short = arg.Short then
      some (['-'] ++ arg.Short ++ (" is already a registred shorthand argument").toList)
    else registerLoop arg rest

/-- Go `Register` (`args.go` lines 151–164).  A Go `panic` is modelled as
returning the state unchanged together with `some message`; success appends the
descriptor and returns `none`. -/
def Register (arg : Argument) (registered : List Argument) :
    List Argument × Option (List Char) :=
  if arg.DefaultValue ≠ [] ∧ arg.ExpectsValue = false then
    (registered,
      some (['-', '-'] ++ arg.Name ++ (" has a default value but does not expect value").toList))
  else
    match registerLoop arg registered with
    | some e => (registered, some e)
    | none => (registered ++ [arg], none)

/-- The indexed loop body of `availableFlags` (`args.go` lines 119–131):
`n` is `len(registered)` and `i` the current index; a space is appended after
every entry except the one at index `n - 1`. -/
def availableFlagsAux (n : Nat) : Nat → List Argument → List Char
  | _, [] => []
  | i, arg :: rest =>
    ((if arg.Short = [] then ['-', '-'] ++ arg.Name else ['-'] ++ arg.Short) ++
      (if arg.ExpectsValue then ['='] else []) ++
      (if n - 1 ≠ i then [' '] else [])) ++ availableFlagsAux n (i + 1) rest

/-- Go `availableFlags` (`args.go` lines 118–134). -/
def availableFlags (registered : List Argument) : List Char :=
  availableFlagsAux registered.length 0 registered

/-- The accumulator loop of `argNameMaxLen` (`args.go` lines 138–145): skip when
the name length is strictly below the running value, otherwise overwrite it. -/
def argNameMaxLenAux : Nat → List Argument → Nat
  | m, [] => m
  | m, arg :: rest =>
    if arg.Name.length < m then argNameMaxLenAux m rest
    else argNameMaxLenAux arg.Name.length rest

/-- Go `argNameMaxLen` (`args.go` lines 137–148). -/
def argNameMaxLen (registered : List Argument) : Nat :=
  argNameMaxLenAux 0 registered

/-! ## Characterizations of the string primitives -/

theorem hasPref_iff (p s : List Char) : hasPref p s = true ↔ ∃ t, s = p ++ t := by
  induction p generalizing s with
  | nil => simp [hasPref]
  | cons c cs ih =>
    cases s with
    | nil => simp [hasPref]
    | cons d ds =>
      simp only [hasPref, Bool.and_eq_true, beq_iff_eq, ih, List.cons_append, List.cons.injEq]
      constructor
      · rintro ⟨rfl, t, rfl⟩; exact ⟨t, rfl, rfl⟩
      · rintro ⟨t, rfl, rfl⟩; exact ⟨rfl, t, rfl⟩

theorem containsSub_iff (sub s : List Char) :
    containsSub sub s = true ↔ ∃ u t, s = u ++ sub ++ t := by
  induction s with
  | nil =>
    rw [containsSub, hasPref_iff]
    constructor
    · rintro ⟨t, ht⟩
      exact ⟨[], t, by simpa using ht⟩
    · rintro ⟨u, t, ht⟩
      rcases List.append_eq_nil.mp ht.symm with ⟨h1, h2⟩
      rcases List.append_eq_nil.mp h1 with ⟨h3, h4⟩
      exact ⟨[], by simp [h4]⟩
  | cons c cs ih =>
    rw [containsSub, Bool.or_eq_true, hasPref_iff, ih]
    constructor
    · rintro (⟨t, ht⟩ | ⟨u, t, ht⟩)
      · exact ⟨[], t, by simpa using ht⟩
      · exact ⟨c :: u, t, by simp [ht]⟩
    · rintro ⟨u, t, ht⟩
      cases u with
      | nil => exact Or.inl ⟨t, by simpa using ht⟩
      | cons c₁ u₁ =>
        rcases List.cons.injEq .. ▸ ht with ⟨rfl, h⟩
        exact Or.inr ⟨u₁, t, by simpa using h⟩

theorem containsSub_of_hasPref {p s : List Char} (h : hasPref p s = true) :
    containsSub p s = true := by
  cases s with
  | nil => simpa [containsSub] using h
  | cons c cs => simp [containsSub, h]

theorem splitOnChar_of_not_mem {c : Char} {v : List Char} (h : c ∉ v) :
    splitOnChar c v = [v] := by
  induction v with
  | nil => rfl
  | cons d ds ih =>
    have hd : d ≠ c := by rintro rfl; exact h (List.mem_cons_self _ _)
    have hds : c ∉ ds := fun hm => h (List.mem_cons_of_mem _ hm)
    simp [splitOnChar, hd, ih hds]

theorem splitOnChar_append {c : Char} (k rest : List Char) (h : c ∉ k) :
    splitOnChar c (k ++ c :: rest) = k :: splitOnChar c rest := by
  induction k with
  | nil => simp [splitOnChar]
  | cons d ds ih =>
    have hd : d ≠ c := by rintro rfl; exact h (List.mem_cons_self _ _)
    have hds : c ∉ ds := fun hm => h (List.mem_cons_of_mem _ hm)
    simp [splitOnChar, hd, ih hds]

/-! ## C1: dash stripping -/

/-- **C1** (counterexample).  The claim says a token containing `--` has the
`--` removed at its first occurring position, so `foo--bar` would become
`foobar`.  The code detects `--` with `strings.Contains` but removes it with
`strings.TrimPrefix`, so `foo--bar` is left entirely unchanged. -/
theorem c1_substring_dash_not_removed :
    parseArgs [['p'], "foo--bar".toList] = [("foo--bar".toList, [])] ∧
      "foo--bar".toList ≠ "foobar".toList := by
  exact ⟨by rfl, by decide⟩

/-- **C1** (amended).  Dash stripping removes `--` (resp. `-`) only when it is
a *leading* segment of the token: when the token contains `--` anywhere, a
leading `--` is dropped if present and otherwise the token is left unchanged
(the single-dash branch is never reached); when the token merely contains `-`,
a leading `-` is dropped if present and otherwise the token is unchanged.
The `contains` and leading-segment tests are characterized explicitly. -/
theorem stripDash_trims_only_leading (a : List Char) :
    stripDash a =
      (if hasPref ['-', '-'] a then a.drop 2
       else if containsSub ['-', '-'] a then a
       else if hasPref ['-'] a then a.drop 1
       else a)
    ∧ (containsSub ['-', '-'] a = true ↔ ∃ u t, a = u ++ ['-', '-'] ++ t)
    ∧ (hasPref ['-', '-'] a = true ↔ ∃ t, a = ['-', '-'] ++ t)
    ∧ (hasPref ['-'] a = true ↔ ∃ t, a = ['-'] ++ t) := by
  refine ⟨?_, containsSub_iff _ _, hasPref_iff _ _, hasPref_iff _ _⟩
  unfold stripDash trimPref
  by_cases h1 : hasPref ['-', '-'] a = true
  · simp [h1, containsSub_of_hasPref h1]
  · simp only [Bool.not_eq_true] at h1
    by_cases h2 : containsSub ['-', '-'] a = true
    · simp [h1, h2]
    · simp only [Bool.not_eq_true] at h2
      by_cases h3 : hasPref ['-'] a = true
      · simp [h1, h2, h3, containsSub_of_hasPref h3]
      · simp only [Bool.not_eq_true] at h3
        simp [h1, h2, h3]

/-! ## C2: `=` splitting -/

/-- **C2** (counterexample).  The claim says tokenizing `--a=b=c` records key
`a` mapped to value `b=c` (everything after the first `=`).  The code splits on
every `=` and keeps only the second part, so the recorded value is `b`. -/
theorem c2_value_truncated_at_second_eq :
    parseArgs [['p'], "--a=b=c".toList] = [(['a'], ['b'])] ∧
      (['b'] : List Char) ≠ ['b', '=', 'c'] := by
  exact ⟨by rfl, by decide⟩

/-- **C2** (amended).  When the remainder after dash stripping contains `=`,
the part before the first `=` becomes the key, and the value is the segment
strictly between the first and the second `=` — the whole rest only when there
is no second `=`; anything after a second `=` is discarded. -/
theorem keyVal_second_segment (k v r : List Char) (hk : '=' ∉ k) (hv : '=' ∉ v) :
    keyVal (k ++ '=' :: v) = (k, v) ∧ keyVal (k ++ '=' :: (v ++ '=' :: r)) = (k, v) := by
  have hc1 : containsSub ['='] (k ++ '=' :: v) = true := by
    rw [containsSub_iff]; exact ⟨k, v, by simp⟩
  have hc2 : containsSub ['='] (k ++ '=' :: (v ++ '=' :: r)) = true := by
    rw [containsSub_iff]; exact ⟨k, v ++ '=' :: r, by simp⟩
  constructor
  · simp [keyVal, hc1, splitOnChar_append _ _ hk, splitOnChar_of_not_mem hv]
  · simp [keyVal, hc2, splitOnChar_append _ _ hk, splitOnChar_append _ _ hv]

/-- **C2** witness: the amended theorem applied to the token remainder
`a=b=c`. -/
theorem keyVal_second_segment_witness :
    ('=' ∉ (['a'] : List Char)) ∧ keyVal ['a', '=', 'b', '=', 'c'] = (['a'], ['b']) := by
  refine ⟨by decide, ?_⟩
  have h := (keyVal_second_segment ['a'] ['b'] ['c'] (by decide) (by decide)).2
  simpa using h

/-! ## C3, C4: `Using` and `Value` resolution -/

theorem usingLoop_iff (name : List Char) (args : Table) (regs : List Argument) :
    usingLoop name args regs = true ↔
      ∃ r ∈ regs, r.Name = name ∧ (mapLookup r.Short args).isSome = true := by
  induction regs with
  | nil => simp [usingLoop]
  | cons r rest ih =>
    by_cases hn : r.Name = name
    · by_cases hs : (mapLookup r.Short args).isSome = true
      · simp [usingLoop, hn, hs]
      · simp [usingLoop, hn, hs, ih]
    · simp [usingLoop, hn, ih]

/-- **C3**.  `Using(name)` is true iff the raw argument table is non-empty and
either `name` itself is a key, or some registered descriptor named `name` has
its `Short` as a key; on an empty table it is false regardless of what is
registered. -/
theorem Using_iff (name : List Char) (args : Table) (registered : List Argument) :
    (Using name args registered = true ↔
      args ≠ [] ∧ ((mapLookup name args).isSome = true ∨
        ∃ r ∈ registered, r.Name = name ∧ (mapLookup r.Short args).isSome = true))
    ∧ Using name [] registered = false := by
  refine ⟨?_, by simp [Using]⟩
  rw [Using]
  rcases eq_or_ne args [] with rfl | ha
  · simp
  · have hlen : ¬ args.length = 0 := by simpa [List.length_eq_zero] using ha
    by_cases hl : (mapLookup name args).isSome = true
    · simp [hlen, hl, ha]
    · simp [hlen, hl, ha, usingLoop_iff]

/-- Scans a list of candidate keys in order and returns the value of the first
one present in the table. -/
def resolveFirst (args : Table) : List (List Char) → Option (List Char)
  | [] => none
  | k :: ks =>
    match mapLookup k args with
    | some v => some v
    | none => resolveFirst args ks

theorem valueLoop_eq (name : List Char) (args : Table) (regs : List Argument) :
    valueLoop name args regs =
      resolveFirst args
        ((regs.filter (fun r => decide (r.Name = name))).map (fun r => r.Short)) := by
  induction regs with
  | nil => rfl
  | cons r rest ih =>
    by_cases hn : r.Name = name
    · cases hlk : mapLookup r.Short args with
      | none => simp [valueLoop, hn, hlk, ih, List.filter_cons, resolveFirst]
      | some v => simp [valueLoop, hn, hlk, List.filter_cons, resolveFirst]
    · simp [valueLoop, hn, ih, List.filter_cons]

/-- **C4**.  `Value(name)` resolves in the same order as `Using`: the exact
`name` key first, then — in registration order — the `Short` of each descriptor
named `name`; it returns the first value found and the empty string when the
table is empty or no candidate key resolves. -/
theorem Value_resolution (name : List Char) (args : Table) (registered : List Argument) :
    Value name args registered =
      if args = [] then []
      else
        (resolveFirst args
          (name ::
            (registered.filter (fun r => decide (r.Name = name))).map (fun r => r.Short))).getD
          [] := by
  rw [Value]
  rcases eq_or_ne args [] with rfl | ha
  · simp
  · have hlen : ¬ args.length = 0 := by simpa [List.length_eq_zero] using ha
    simp only [hlen, if_false, ha, resolveFirst]
    cases hlk : mapLookup name args with
    | some v => simp [hlk]
    | none => simp [hlk, valueLoop_eq]

/-! ## C5: `Register` -/

theorem registerLoop_isSome_iff (arg : Argument) (regs : List Argument) :
    (registerLoop arg regs).isSome = true ↔
      (∃ r ∈ regs, r.Name = arg.Name) ∨
        (arg.Short ≠ [] ∧ ∃ r ∈ regs, r.Short = arg.Short) := by
  induction regs with
  | nil => simp [registerLoop]
  | cons r rest ih =>
    rw [registerLoop]
    by_cases hn : r.Name = arg.Name
    · simp [hn]
    · by_cases hshort : arg.Short = []
      · rw [if_neg hn, if_neg (by simp [hshort])]
        simp [hshort, hn, ih]
      · by_cases hs : r.Short = arg.Short
        · rw [if_neg hn, if_pos ⟨hshort, hs⟩]
          simp only [Option.isSome_some, true_iff]
          exact Or.inr ⟨hshort, r, List.mem_cons_self _ _, hs⟩
        · rw [if_neg hn, if_neg (by simp [hs])]
          simp [hn, hs, ih, hshort]

/-- **C5**.  `Register(arg)` panics iff `arg.DefaultValue` is non-empty while
`arg.ExpectsValue` is false, or `arg.Name` duplicates a registered `Name`, or
`arg.Short` is non-empty and duplicates a registered `Short`; otherwise it
appends the descriptor at the end of the registered sequence. -/
theorem Register_spec (arg : Argument) (registered : List Argument) :
    ((Register arg registered).2.isSome = true ↔
      (arg.DefaultValue ≠ [] ∧ arg.ExpectsValue = false) ∨
        (∃ r ∈ registered, r.Name = arg.Name) ∨
        (arg.Short ≠ [] ∧ ∃ r ∈ registered, r.Short = arg.Short)) ∧
      ((Register arg registered).2 = none →
        (Register arg registered).1 = registered ++ [arg]) := by
  by_cases hd : arg.DefaultValue ≠ [] ∧ arg.ExpectsValue = false
  · simp [Register, hd]
  · have hiff := registerLoop_isSome_iff arg registered
    cases hlp : registerLoop arg registered with
    | some e =>
      rw [hlp] at hiff
      simp only [Option.isSome_some, true_iff] at hiff
      simp [Register, hd, hlp, hiff]
    | none =>
      rw [hlp] at hiff
      simp only [Option.isSome_none, Bool.false_eq_true, false_iff] at hiff
      have hreg : Register arg registered = (registered ++ [arg], none) := by
        unfold Register
        rw [if_neg hd, hlp]
      rw [hreg]
      simp only [Option.isSome_none, Bool.false_eq_true, false_iff]
      refine ⟨?_, by simp⟩
      rintro (h | h | h)
      · exact hd h
      · exact hiff (Or.inl h)
      · exact hiff (Or.inr h)

/-- **C5** witness: a valid registration succeeds and appends at the end. -/
theorem Register_spec_witness :
    (Register ⟨['a'], [], [], [], [], false⟩ []).2 = none ∧
      (Register ⟨['a'], [], [], [], [], false⟩ []).1 =
        [] ++ [⟨['a'], [], [], [], [], false⟩] :=
  ⟨by decide, (Register_spec ⟨['a'], [], [], [], [], false⟩ []).2 (by decide)⟩

/-! ## C6: `availableFlags` -/

/-- Space-joins entries with a single space between consecutive entries and no
trailing space. -/
def joinSp : List (List Char) → List Char
  | [] => []
  | [x] => x
  | x :: y :: rest => x ++ ' ' :: joinSp (y :: rest)

/-- The usage entry for one descriptor: `-Short` when `Short` is non-empty,
otherwise `--Name`, suffixed with `=` exactly when the descriptor expects a
value. -/
def flagEntry (arg : Argument) : List Char :=
  (if arg.Short = [] then ['-', '-'] ++ arg.Name else ['-'] ++ arg.Short) ++
    (if arg.ExpectsValue then ['='] else [])

theorem availableFlagsAux_eq (l : List Argument) :
    ∀ i n, n = i + l.length → availableFlagsAux n i l = joinSp (l.map flagEntry) := by
  induction l with
  | nil => intro i n _; rfl
  | cons arg rest ih =>
    intro i n h
    cases rest with
    | nil =>
      subst h
      simp [availableFlagsAux, joinSp, flagEntry, List.append_assoc]
    | cons b t =>
      have hne : n - 1 ≠ i := by subst h; simp only [List.length_cons]; omega
      have hrec := ih (i + 1) n (by subst h; simp only [List.length_cons]; omega)
      rw [show availableFlagsAux n i (arg :: b :: t) =
            ((if arg.Short = [] then ['-', '-'] ++ arg.Name else ['-'] ++ arg.Short) ++
              (if arg.ExpectsValue then ['='] else []) ++
              (if n - 1 ≠ i then [' '] else [])) ++ availableFlagsAux n (i + 1) (b :: t)
          from rfl]
      rw [if_pos hne, hrec]
      simp [joinSp, flagEntry, List.append_assoc]

/-- **C6**.  `availableFlags` emits one entry per descriptor in registration
order — `-Short` when `Short` is non-empty, otherwise `--Name`, with `=`
appended exactly when the descriptor expects a value — separated by single
spaces with no trailing space; on the two descriptors of the claim it yields
`"--a -c="`. -/
theorem availableFlags_spec (registered : List Argument) :
    availableFlags registered = joinSp (registered.map flagEntry) ∧
      availableFlags
          [⟨"a".toList, [], [], [], [], false⟩,
            ⟨"b".toList, "c".toList, [], [], [], true⟩] =
        "--a -c=".toList := by
  exact ⟨availableFlagsAux_eq registered 0 registered.length (by simp), by rfl⟩

/-! ## C7: `argNameMaxLen` -/

theorem argNameMaxLenAux_eq (l : List Argument) :
    ∀ m, argNameMaxLenAux m l =
      max m ((l.map (fun r => r.Name.length)).foldr max 0) := by
  induction l with
  | nil => intro m; simp [argNameMaxLenAux]
  | cons arg rest ih =>
    intro m
    simp only [argNameMaxLenAux, List.map_cons, List.foldr_cons]
    by_cases h : arg.Name.length < m
    · rw [if_pos h, ih m]; omega
    · rw [if_neg h, ih arg.Name.length]; omega

theorem le_foldr_max {a : Nat} : ∀ {l : List Nat}, a ∈ l → a ≤ l.foldr max 0 := by
  intro l
  induction l with
  | nil => intro h; cases h
  | cons b t ih =>
    intro h
    rcases List.mem_cons.mp h with rfl | h
    · exact le_max_left _ _
    · exact le_trans (ih h) (le_max_right _ _)

/-- **C7**.  `argNameMaxLen` returns the maximum of the lengths of the
registered names (0 for an empty registry): it equals the fold of `max` over
the name lengths, and every registered name length is bounded by it. -/
theorem argNameMaxLen_spec (registered : List Argument) :
    argNameMaxLen registered = (registered.map (fun r => r.Name.length)).foldr max 0 ∧
      ∀ r ∈ registered, r.Name.length ≤ argNameMaxLen registered := by
  have h := argNameMaxLenAux_eq registered 0
  constructor
  · rw [argNameMaxLen, h]; omega
  · intro r hr
    rw [argNameMaxLen, h]
    have hmem : r.Name.length ∈ registered.map (fun r => r.Name.length) :=
      List.mem_map_of_mem _ hr
    have := le_foldr_max hmem
    omega

/-- **C7** witness: the bound applied to a concrete registry. -/
theorem argNameMaxLen_spec_witness :
    (⟨['a', 'b'], [], [], [], [], false⟩ : Argument) ∈
        [(⟨['a', 'b'], [], [], [], [], false⟩ : Argument)] ∧
      (⟨['a', 'b'], [], [], [], [], false⟩ : Argument).Name.length ≤
        argNameMaxLen [⟨['a', 'b'], [], [], [], [], false⟩] :=
  ⟨List.mem_cons_self _ _,
    (argNameMaxLen_spec _).2 _ (List.mem_cons_self _ _)⟩

/-! ## C8: the map semantics of the tokenizer -/

/-- Left-biased choice on options. -/
def optOr {α : Type} : Option α → Option α → Option α
  | some v, _ => some v
  | none, o => o

theorem optOr_none {α : Type} (o : Option α) : optOr o none = o := by
  cases o <;> rfl

theorem optOr_assoc {α : Type} (a b c : Option α) :
    optOr (optOr a b) c = optOr a (optOr b c) := by
  cases a <;> rfl

theorem find?_append {α : Type} (p : α → Bool) (l₁ l₂ : List α) :
    (l₁ ++ l₂).find? p = optOr (l₁.find? p) (l₂.find? p) := by
  induction l₁ with
  | nil => rfl
  | cons a t ih =>
    cases h : p a with
    | true =>
      rw [List.cons_append, List.find?_cons_of_pos _ h, List.find?_cons_of_pos _ h]
      rfl
    | false =>
      rw [List.cons_append, List.find?_cons_of_neg _ (by simp [h]),
        List.find?_cons_of_neg _ (by simp [h]), ih]

/-- The value contributed by the last token (in invocation order) whose parsed
key is `k`, if any. -/
def lastVal (k : List Char) (tokens : List (List Char)) : Option (List Char) :=
  match tokens.reverse.find? (fun a => decide ((parseToken a).1 = k)) with
  | some a => some (parseToken a).2
  | none => none

theorem lastVal_cons (k t : List Char) (ts : List (List Char)) :
    lastVal k (t :: ts) =
      optOr (lastVal k ts)
        (if (parseToken t).1 = k then some (parseToken t).2 else none) := by
  rw [lastVal, List.reverse_cons, find?_append]
  cases hf : ts.reverse.find? (fun a => decide ((parseToken a).1 = k)) with
  | some a => simp [optOr, lastVal, hf]
  | none =>
    by_cases h : (parseToken t).1 = k
    · simp [optOr, lastVal, hf, h, List.find?]
    · simp [optOr, lastVal, hf, h, List.find?]

theorem mapLookup_mapInsert (k k₁ v : List Char) (m : Table) :
    mapLookup k (mapInsert k₁ v m) = if k₁ = k then some v else mapLookup k m := by
  induction m with
  | nil => rfl
  | cons p rest ih =>
    obtain ⟨k₂, v₂⟩ := p
    by_cases h : k₂ = k₁
    · subst h
      by_cases hk : k₂ = k <;> simp [mapInsert, mapLookup, hk]
    · by_cases hk : k₂ = k
      · subst hk
        have h' : ¬ k₁ = k₂ := fun hkk => h hkk.symm
        simp [mapInsert, mapLookup, h, h']
      · simp [mapInsert, mapLookup, h, hk, ih]

theorem mem_keys_mapInsert (a k v : List Char) (m : Table) :
    a ∈ (mapInsert k v m).map Prod.fst ↔ a = k ∨ a ∈ m.map Prod.fst := by
  induction m with
  | nil => simp [mapInsert]
  | cons p rest ih =>
    obtain ⟨k₂, v₂⟩ := p
    by_cases h : k₂ = k
    · subst h; simp [mapInsert]
    · simp [mapInsert, h, ih]; tauto

theorem nodup_keys_mapInsert (k v : List Char) (m : Table)
    (h : (m.map Prod.fst).Nodup) : ((mapInsert k v m).map Prod.fst).Nodup := by
  induction m with
  | nil => simp [mapInsert]
  | cons p rest ih =>
    obtain ⟨k₂, v₂⟩ := p
    simp only [List.map_cons, List.nodup_cons] at h
    by_cases hk : k₂ = k
    · subst hk
      have hins : mapInsert k₂ v ((k₂, v₂) :: rest) = (k₂, v) :: rest := by
        simp [mapInsert]
      rw [hins]
      simp only [List.map_cons, List.nodup_cons]
      exact ⟨h.1, h.2⟩
    · simp only [mapInsert, if_neg hk, List.map_cons, List.nodup_cons]
      refine ⟨?_, ih h.2⟩
      rw [mem_keys_mapInsert]
      rintro (rfl | hmem)
      · exact hk rfl
      · exact h.1 hmem

theorem lookup_foldl_insert (k : List Char) (toks : List (List Char)) :
    ∀ m : Table,
      mapLookup k
          (toks.foldl (fun m a => mapInsert (parseToken a).1 (parseToken a).2 m) m) =
        optOr (lastVal k toks) (mapLookup k m) := by
  induction toks with
  | nil => intro m; simp [lastVal, optOr, List.find?]
  | cons t ts ih =>
    intro m
    rw [List.foldl_cons, ih, lastVal_cons, optOr_assoc, mapLookup_mapInsert]
    congr 1
    by_cases h : (parseToken t).1 = k <;> simp [h, optOr]

theorem nodup_foldl_insert (toks : List (List Char)) :
    ∀ m : Table, (m.map Prod.fst).Nodup →
      ((toks.foldl (fun m a => mapInsert (parseToken a).1 (parseToken a).2 m) m).map
          Prod.fst).Nodup := by
  induction toks with
  | nil => intro m h; exact h
  | cons t ts ih => intro m h; exact ih _ (nodup_keys_mapInsert _ _ _ h)

/-- **C8**.  The raw argument table maps each key to the value contributed by
the *last* invocation token parsing to that key (later tokens overwrite earlier
ones), and the table's keys are unique. -/
theorem parseArgs_last_write_wins (osArgs : List (List Char)) (k : List Char) :
    mapLookup k (parseArgs osArgs) = lastVal k (osArgs.drop 1) ∧
      ((parseArgs osArgs).map Prod.fst).Nodup := by
  rw [parseArgs]
  by_cases h : osArgs.length ≤ 1
  · have hd : osArgs.drop 1 = [] := by
      cases osArgs with
      | nil => rfl
      | cons a t =>
        cases t with
        | nil => rfl
        | cons b u => simp at h
    simp [h, hd, lastVal, mapLookup, List.find?]
  · rw [if_neg h]
    refine ⟨?_, nodup_foldl_insert _ [] (by simp)⟩
    rw [lookup_foldl_insert]
    simp [optOr_none, mapLookup]

/-! ## C9: bare dash tokens and the empty shorthand -/

/-- **C9** (counterexample).  The claim says that whenever the table contains
the empty-string key, `Value(name)` returns that key's value for every
registered descriptor named `name` with empty `Short`.  But the exact-name key
takes precedence: with tokens `--x=w` and `--=v` (so the table maps `x ↦ w` and
`"" ↦ v`) and the descriptor `{Name: "x", Short: ""}` registered, `Value("x")`
returns `w`, not the empty key's value `v`. -/
theorem c9_exact_key_precedes_empty_short :
    mapLookup [] (parseArgs [['p'], "--x=w".toList, "--=v".toList]) = some ['v'] ∧
      (⟨['x'], [], [], [], [], false⟩ : Argument).Name = ['x'] ∧
      (⟨['x'], [], [], [], [], false⟩ : Argument).Short = [] ∧
      Value ['x'] (parseArgs [['p'], "--x=w".toList, "--=v".toList])
          [⟨['x'], [], [], [], [], false⟩] = ['w'] ∧
      (['w'] : List Char) ≠ ['v'] := by
  exact ⟨by rfl, rfl, rfl, by rfl, by decide⟩

/-- **C9** (amended).  A token that is only a dash prefix (`--` or `-`)
tokenizes to the empty key with the empty value.  Whenever the table contains
the empty-string key and some registered descriptor named `name` has empty
`Short`, `Using(name)` is true — whether or not `name` is itself a key in the
table.  `Value(name)` returns the empty key's value provided `name` is not
itself a key in the table and every registered descriptor named `name` has
empty `Short` (otherwise an earlier resolution step takes precedence). -/
theorem empty_dash_token_resolution (name : List Char) (args : Table)
    (regs : List Argument) (v : List Char)
    (hempty : mapLookup [] args = some v)
    (hmatch : ∃ r ∈ regs, r.Name = name ∧ r.Short = []) :
    (parseToken ['-', '-'] = ([], []) ∧ parseToken ['-'] = ([], [])) ∧
      Using name args regs = true ∧
      (mapLookup name args = none →
        (∀ r ∈ regs, r.Name = name → r.Short = []) →
        Value name args regs = v) := by
  have ha : args ≠ [] := by rintro rfl; simp [mapLookup] at hempty
  have hlen : ¬ args.length = 0 := by simpa [List.length_eq_zero] using ha
  obtain ⟨r, hr, hrn, hshort⟩ := hmatch
  refine ⟨⟨by decide, by decide⟩, ?_, ?_⟩
  · rw [Using, if_neg hlen]
    by_cases hk : (mapLookup name args).isSome = true
    · rw [if_pos hk]
    · rw [if_neg hk, usingLoop_iff]
      exact ⟨r, hr, hrn, by simp [hshort, hempty]⟩
  · intro hname hall
    rw [Value, if_neg hlen, hname]
    have hres : ∀ ks : List (List Char), ks ≠ [] → (∀ x ∈ ks, x = []) →
        resolveFirst args ks = some v := by
      intro ks hne hall'
      cases ks with
      | nil => exact absurd rfl hne
      | cons x xs =>
        have hx : x = [] := hall' x (List.mem_cons_self _ _)
        subst hx
        simp [resolveFirst, hempty]
    rw [valueLoop_eq]
    have hmem : r.Short ∈
        (regs.filter (fun r => decide (r.Name = name))).map (fun r => r.Short) :=
      List.mem_map_of_mem _ (List.mem_filter.mpr ⟨hr, by simp [hrn]⟩)
    have hallks : ∀ x ∈
        (regs.filter (fun r => decide (r.Name = name))).map (fun r => r.Short), x = [] := by
      intro x hx
      rcases List.mem_map.mp hx with ⟨r', hr', rfl⟩
      rcases List.mem_filter.mp hr' with ⟨hr'', hdec⟩
      exact hall r' hr'' (by simpa using hdec)
    rw [hres _ (List.ne_nil_of_mem hmem) hallks]
    rfl

/-- **C9** witness: the amended theorem applied twice with the descriptor
`{Name: "x", Short: ""}` — once on a table where `x` *is* itself a key
(so `Using` is true even then), and once on the table built from the token
`--=v` alone (so `Value` returns the empty key's value). -/
theorem empty_dash_token_resolution_witness :
    Using ['x'] [(['x'], ['w']), ([], ['v'])] [⟨['x'], [], [], [], [], false⟩] = true ∧
      Value ['x'] [([], ['v'])] [⟨['x'], [], [], [], [], false⟩] = ['v'] :=
  ⟨(empty_dash_token_resolution ['x'] [(['x'], ['w']), ([], ['v'])]
      [⟨['x'], [], [], [], [], false⟩] ['v'] (by decide) (by decide)).2.1,
    (empty_dash_token_resolution ['x'] [([], ['v'])]
      [⟨['x'], [], [], [], [], false⟩] ['v'] (by decide) (by decide)).2.2
      (by decide) (by decide)⟩

/-! ## C10: failed registration leaves the registry unchanged -/

/-- **C10**.  All three validity checks of `Register` happen before the append:
whenever `Register(arg)` panics, the registered sequence is returned exactly as
it was. -/
theorem Register_fail_preserves (arg : Argument) (regs : List Argument)
    (e : List Char) (h : (Register arg regs).2 = some e) :
    (Register arg regs).1 = regs := by
  unfold Register at h ⊢
  by_cases hd : arg.DefaultValue ≠ [] ∧ arg.ExpectsValue = false
  · rw [if_pos hd]
  · rw [if_neg hd] at h ⊢
    cases hlp : registerLoop arg regs with
    | some e₁ => rfl
    | none => rw [hlp] at h; simp at h

/-- **C10** witness: a registration that panics on its default-value check
leaves a non-empty registry untouched. -/
theorem Register_fail_preserves_witness :
    (Register ⟨['a'], [], [], ['d'], [], false⟩ [⟨['b'], [], [], [], [], false⟩]).2 =
        some (['-', '-'] ++ ['a'] ++ (" has a default value but does not expect value").toList) ∧
      (Register ⟨['a'], [], [], ['d'], [], false⟩ [⟨['b'], [], [], [], [], false⟩]).1 =
        [⟨['b'], [], [], [], [], false⟩] :=
  ⟨by decide, Register_fail_preserves _ _
    (['-', '-'] ++ ['a'] ++ (" has a default value but does not expect value").toList)
    (by decide)⟩

end ArgsGo
